import Mathlib

/-!
# Shallow embedding of the Bengali→English transliterator

This file embeds the transliteration engine of
`src/bengali_english_translator.py` (class `BengaliEnglishTransliterator`)
and the smart PDF-extraction fallback policy, and proves the specified
properties about them.

Strings are modelled as `List Char` (Python `str` is a sequence of Unicode
code points; note that the three nukta consonants in the source file are
written in decomposed form, i.e. as TWO code points, so the character map
is an association from code-point *strings* to strings, exactly as a
Python `dict` keyed by `str`).
-/

namespace BengaliTranslator

/-- A Python string: a sequence of Unicode code points. -/
abbrev Str := List Char

/-- Whitespace, modelling Python's notion used by `str.strip`,
`str.isspace` and the regex class `\s` (restricted to the code points
relevant here; all Bengali and Latin letters are non-whitespace). -/
def isSpace (c : Char) : Bool :=
  c == ' ' || c == '\t' || c == '\n' || c == '\r' || c == '\x0b' || c == '\x0c' ||
  c == '\x1c' || c == '\x1d' || c == '\x1e' || c == '\x1f' || c == '\x85' || c == '\xa0'

/-- Python `str.strip()`: drop leading and trailing whitespace. -/
def strip (l : Str) : Str :=
  ((l.dropWhile isSpace).reverse.dropWhile isSpace).reverse

/-- Lookup in an association list, modelling Python `dict` access
(`d.get(k, default)` / `k in d` / `d[k]`) for dicts with distinct keys. -/
def lookupAssoc {α β : Type} [DecidableEq α] (k : α) : List (α × β) → Option β
  | [] => none
  | (a, v) :: t => if k = a then some v else lookupAssoc k t

/-- The hasanta / virama mark U+09CD. -/
def virama : Char := '্'


/-- `_create_transliteration_map` (source lines 43-130): the Bengali→Latin
character map.  Keys are code-point strings: the three nukta consonants are
written in decomposed form in the source file and therefore are
two-code-point keys (unreachable from `transliterate_character`, which looks
up single code points — exactly as in the Python source). -/
def characterMap : List (Str × Str) := [
  (['\u0985'], ['o']),
  (['\u0986'], ['a']),
  (['\u0987'], ['i']),
  (['\u0988'], ['e', 'e']),
  (['\u0989'], ['u']),
  (['\u098A'], ['o', 'o']),
  (['\u098B'], ['r', 'i']),
  (['\u098F'], ['e']),
  (['\u0990'], ['o', 'i']),
  (['\u0993'], ['o']),
  (['\u0994'], ['o', 'u']),
  (['\u09BE'], ['a']),
  (['\u09BF'], ['i']),
  (['\u09C0'], ['e', 'e']),
  (['\u09C1'], ['u']),
  (['\u09C2'], ['o', 'o']),
  (['\u09C3'], ['r', 'i']),
  (['\u09C7'], ['e']),
  (['\u09C8'], ['o', 'i']),
  (['\u09CB'], ['o']),
  (['\u09CC'], ['o', 'u']),
  (['\u0995'], ['k']),
  (['\u0996'], ['k', 'h']),
  (['\u0997'], ['g']),
  (['\u0998'], ['g', 'h']),
  (['\u0999'], ['n', 'g']),
  (['\u099A'], ['c', 'h']),
  (['\u099B'], ['c', 'h', 'h']),
  (['\u099C'], ['j']),
  (['\u099D'], ['j', 'h']),
  (['\u099E'], ['n', 'y']),
  (['\u099F'], ['t']),
  (['\u09A0'], ['t', 'h']),
  (['\u09A1'], ['d']),
  (['\u09A2'], ['d', 'h']),
  (['\u09A3'], ['n']),
  (['\u09A4'], ['t']),
  (['\u09A5'], ['t', 'h']),
  (['\u09A6'], ['d']),
  (['\u09A7'], ['d', 'h']),
  (['\u09A8'], ['n']),
  (['\u09AA'], ['p']),
  (['\u09AB'], ['p', 'h']),
  (['\u09AC'], ['b']),
  (['\u09AD'], ['b', 'h']),
  (['\u09AE'], ['m']),
  (['\u09AF'], ['y']),
  (['\u09B0'], ['r']),
  (['\u09B2'], ['l']),
  (['\u09B6'], ['s', 'h']),
  (['\u09B7'], ['s', 'h']),
  (['\u09B8'], ['s']),
  (['\u09B9'], ['h']),
  (['\u09A1', '\u09BC'], ['r']),
  (['\u09A2', '\u09BC'], ['r', 'h']),
  (['\u09AF', '\u09BC'], ['y']),
  (['\u09CE'], ['t']),
  (['\u0982'], ['n', 'g']),
  (['\u0983'], ['h']),
  (['\u09CD'], []),
  (['\u09E6'], ['0']),
  (['\u09E7'], ['1']),
  (['\u09E8'], ['2']),
  (['\u09E9'], ['3']),
  (['\u09EA'], ['4']),
  (['\u09EB'], ['5']),
  (['\u09EC'], ['6']),
  (['\u09ED'], ['7']),
  (['\u09EE'], ['8']),
  (['\u09EF'], ['9']),
  (['\u0964'], ['.']),
  (['\u0965'], ['.', '.'])
]

/-- `_create_word_exceptions` (source lines 132-152): whole-word exception
table consulted (after stripping) before character-level processing. -/
def wordExceptions : List (Str × Str) := [
  (['\u09AA', '\u09A5', '\u09C7', '\u09B0'], ['p', 'o', 't', 'h', 'e', 'r']),
  (['\u09AA', '\u09BE', '\u0981', '\u099A', '\u09BE', '\u09B2', '\u09C0'], ['p', 'a', 'c', 'h', 'a', 'l', 'i']),
  (['\u09A8', '\u09BF', '\u09B6', '\u09CD', '\u099A', '\u09BF', '\u09A8', '\u09CD', '\u09A6', '\u09BF', '\u09AA', '\u09C1', '\u09B0'], ['n', 'i', 's', 'h', 'c', 'h', 'i', 'n', 'd', 'i', 'p', 'u', 'r']),
  (['\u0997', '\u09CD', '\u09B0', '\u09BE', '\u09AE', '\u09C7', '\u09B0'], ['g', 'r', 'a', 'm', 'e', 'r']),
  (['\u098F', '\u0995', '\u09C7', '\u09AC', '\u09BE', '\u09B0', '\u09C7'], ['e', 'k', 'e', 'b', 'a', 'r', 'e']),
  (['\u0989', '\u09A4', '\u09CD', '\u09A4', '\u09B0', '\u09AA', '\u09CD', '\u09B0', '\u09BE', '\u09A8', '\u09CD', '\u09A4', '\u09C7'], ['u', 't', 't', 'a', 'r', 'p', 'r', 'a', 'n', 't', 'e']),
  (['\u09AC', '\u09BE', '\u0982', '\u09B2', '\u09BE'], ['b', 'a', 'n', 'g', 'l', 'a']),
  (['\u09AD', '\u09BE', '\u09B7', '\u09BE'], ['b', 'h', 'a', 's', 'h', 'a']),
  (['\u09B8', '\u09BE', '\u09B9', '\u09BF', '\u09A4', '\u09CD', '\u09AF'], ['s', 'a', 'h', 'i', 't', 'y', 'a']),
  (['\u0995', '\u09AC', '\u09BF', '\u09A4', '\u09BE'], ['k', 'o', 'b', 'i', 't', 'a']),
  (['\u0997', '\u09B2', '\u09CD', '\u09AA'], ['g', 'o', 'l', 'p', 'o']),
  (['\u0989', '\u09AA', '\u09A8', '\u09CD', '\u09AF', '\u09BE', '\u09B8'], ['u', 'p', 'o', 'n', 'n', 'y', 'a', 's']),
  (['\u09B2', '\u09C7', '\u0996', '\u0995'], ['l', 'e', 'k', 'h', 'o', 'k']),
  (['\u0995', '\u09AC', '\u09BF'], ['k', 'o', 'b', 'i'])
]

/-- `transliterate_character` (source lines 154-164):
`self.bengali_to_english_map.get(char, char)` — identity fallback on a
missed lookup.  The argument is a single code point, so the three
decomposed two-code-point keys of the map can never match here, exactly
as in the Python source. -/
def transliterate_character (c : Char) : Str :=
  match lookupAssoc [c] characterMap with
  | some v => v
  | none => [c]

/-- The character-by-character while-loop of `transliterate_word`
(source lines 184-199), as structural recursion on the list of remaining
characters.  The loop guard `i < len(clean_word) - 2 and
clean_word[i+1] == '্'` holds exactly when at least two characters
follow the current one and the next one is the virama; in that case the
mappings of the current character and of the one two places ahead are
emitted and the index advances by 3, otherwise the current character's
mapping is emitted and the index advances by 1. -/
def scanWord : Str → Str
  | c :: d :: e :: rest =>
    if d = virama then
      transliterate_character c ++ transliterate_character e ++ scanWord rest
    else
      transliterate_character c ++ scanWord (d :: e :: rest)
  | c :: rest => transliterate_character c ++ scanWord rest
  | [] => []

/-- `transliterate_word` (source lines 166-200): strip the word, return
the word-exception entry on an exact hit, otherwise run the scan. -/
def transliterate_word (word : Str) : Str :=
  match lookupAssoc (strip word) wordExceptions with
  | some v => v
  | none => scanWord (strip word)

/-- Instrumented variant of `scanWord` that also records the absolute
index of every position at which the conjunct branch of the loop fires
(`i` is the index of the first listed character within the clean word).
Its first component is proved equal to `scanWord` below. -/
def scanWordI : Str → Nat → Str × List Nat
  | c :: d :: e :: rest, i =>
    if d = virama then
      let r := scanWordI rest (i + 3)
      (transliterate_character c ++ transliterate_character e ++ r.1, i :: r.2)
    else
      let r := scanWordI (d :: e :: rest) (i + 1)
      (transliterate_character c ++ r.1, r.2)
  | c :: rest, i =>
    let r := scanWordI rest (i + 1)
    (transliterate_character c ++ r.1, r.2)
  | [], _ => ([], [])

/-- The indices at which the conjunct-consonant branch of the
`transliterate_word` loop fires, for a scan of `w` starting at index `i`. -/
def conjunctSites (w : Str) (i : Nat) : List Nat :=
  (scanWordI w i).2

/-- Partition of a text into maximal runs of same whitespace-class
characters, in order — the token list produced by
`re.findall(r'\S+|\s+', text)` (source line 213).  Each run is nonempty
and homogeneous, adjacent runs have opposite classes, and the runs
concatenate back to the text (all proved below); these properties
determine the partition uniquely. -/
def tokenize : Str → List Str
  | [] => []
  | c :: rest =>
    match tokenize rest with
    | (d :: t) :: ts =>
      if isSpace c = isSpace d then (c :: d :: t) :: ts
      else [c] :: (d :: t) :: ts
    | _ => [[c]]

/-- The whitespace class of a token (class of its first character). -/
def tokClass (t : Str) : Bool :=
  match t with
  | [] => false
  | c :: _ => isSpace c

/-- Python `str.isspace()`: nonempty and all characters whitespace. -/
def isSpaceTok (w : Str) : Bool :=
  !w.isEmpty && w.all isSpace

/-- `transliterate_text` (source lines 202-222): split into whitespace /
non-whitespace runs, keep whitespace runs, transliterate the other runs,
and concatenate. -/
def transliterate_text (text : Str) : Str :=
  ((tokenize text).map fun w => if isSpaceTok w then w else transliterate_word w).flatten

/-- Models Python `str.isalnum` on the fragment relevant to the claims
(ASCII letters and digits); the extraction-policy claims use the
classifier only abstractly or on ASCII inputs. -/
def isAlnum (c : Char) : Bool :=
  c.isAlphanum

/-- The meaningful-text test of `smart_extract_text_from_pdf` (source
line 318): `len(clean_text) > 50 and any(c.isalnum() for c in clean_text)`
where `clean_text = text.strip()`. -/
def isTextSufficient (text : Str) : Bool :=
  50 < (strip text).length && (strip text).any isAlnum

/-- `smart_extract_text_from_pdf` (source lines 300-328), modelled over
abstract collaborator outcomes: `direct` is the outcome of
`extract_text_from_pdf`, and `ocr n` the outcome of the `n`-th call of
`extract_text_from_pdf_with_ocr` (counting from 0).  Returns the overall
outcome together with how many times OCR was invoked.  Control flow of
the source: the `try` block runs direct extraction and, on insufficient
text, calls OCR *inside* the `try`; any exception raised in the block —
from direct extraction or from that first OCR call — is caught by the
single `except` handler, which calls OCR (again); an exception of the
handler's OCR call propagates to the caller. -/
def smartExtract {ε : Type} (direct : Except ε Str) (ocr : Nat → Except ε Str) :
    Except ε Str × Nat :=
  match direct with
  | Except.ok text =>
    if isTextSufficient text then (Except.ok text, 0)
    else
      match ocr 0 with
      | Except.ok t => (Except.ok t, 1)
      | Except.error _ =>
        match ocr 1 with
        | Except.ok t => (Except.ok t, 2)
        | Except.error e => (Except.error e, 2)
  | Except.error _ =>
    match ocr 0 with
    | Except.ok t => (Except.ok t, 1)
    | Except.error e => (Except.error e, 1)


theorem lookupAssoc_mem {α β : Type} [DecidableEq α] {k : α} {v : β} :
    ∀ {l : List (α × β)}, lookupAssoc k l = some v → (k, v) ∈ l := by
  intro l
  induction l with
  | nil => intro h; simp [lookupAssoc] at h
  | cons p t ih =>
    intro h
    obtain ⟨a, w⟩ := p
    by_cases hk : k = a
    · subst hk
      simp [lookupAssoc] at h
      simp [h]
    · simp [lookupAssoc, hk] at h
      exact List.mem_cons_of_mem _ (ih h)

theorem characterMap_keys_not_space :
    ∀ p ∈ characterMap, ∀ c ∈ p.1, isSpace c = false := by decide

theorem t_char_virama : transliterate_character virama = [] := by decide

theorem lookup_nil_exceptions : lookupAssoc ([] : Str) wordExceptions = none := by decide

theorem lookup_singleton_exceptions (c : Char) :
    lookupAssoc [c] wordExceptions = none := by
  simp [wordExceptions, lookupAssoc]

theorem scanWordI_fst : ∀ (l : Str) (i : Nat), (scanWordI l i).1 = scanWord l := by
  intro l i
  induction l, i using scanWordI.induct <;> simp_all [scanWordI, scanWord]


theorem head?_dropWhile_false {p : Char → Bool} :
    ∀ {l : Str} {c : Char}, (l.dropWhile p).head? = some c → p c = false := by
  intro l
  induction l with
  | nil => intro c h; simp at h
  | cons a t ih =>
    intro c h
    cases hp : p a with
    | true => rw [List.dropWhile_cons, if_pos (by simp [hp])] at h; exact ih h
    | false =>
      rw [List.dropWhile_cons, if_neg (by simp [hp])] at h
      simp at h
      exact h ▸ hp

theorem dropWhile_eq_self_of_head {p : Char → Bool} {l : Str}
    (h : ∀ c, l.head? = some c → p c = false) : l.dropWhile p = l := by
  cases l with
  | nil => rfl
  | cons a t => rw [List.dropWhile_cons, if_neg (by simp [h a rfl])]

theorem getLast?_dropWhile (p : Char → Bool) :
    ∀ l : Str, l.dropWhile p = [] ∨ (l.dropWhile p).getLast? = l.getLast? := by
  intro l
  induction l with
  | nil => left; rfl
  | cons a t ih =>
    cases hp : p a with
    | false => right; rw [List.dropWhile_cons, if_neg (by simp [hp])]
    | true =>
      rw [List.dropWhile_cons, if_pos (by simp [hp])]
      cases t with
      | nil => left; rfl
      | cons b u =>
        rcases ih with h | h
        · left; exact h
        · right; rw [h, List.getLast?_cons_cons]

theorem strip_eq_self_of_ends {l : Str}
    (h1 : ∀ c, l.head? = some c → isSpace c = false)
    (h2 : ∀ c, l.getLast? = some c → isSpace c = false) : strip l = l := by
  unfold strip
  rw [dropWhile_eq_self_of_head h1]
  rw [dropWhile_eq_self_of_head (fun c hc => h2 c ((List.head?_reverse l) ▸ hc))]
  exact List.reverse_reverse l

theorem strip_head_false {l : Str} {c : Char} :
    (strip l).head? = some c → isSpace c = false := by
  intro hc
  unfold strip at hc
  rw [List.head?_reverse] at hc
  rcases getLast?_dropWhile isSpace (l.dropWhile isSpace).reverse with h | h
  · rw [h] at hc; simp at hc
  · rw [h, List.getLast?_reverse] at hc
    exact head?_dropWhile_false hc

theorem strip_getLast_false {l : Str} {c : Char} :
    (strip l).getLast? = some c → isSpace c = false := by
  intro hc
  unfold strip at hc
  rw [List.getLast?_reverse] at hc
  exact head?_dropWhile_false hc

theorem strip_idem (l : Str) : strip (strip l) = strip l :=
  strip_eq_self_of_ends (fun _ h => strip_head_false h) (fun _ h => strip_getLast_false h)

theorem strip_eq_self_of_not_space {l : Str} (h : ∀ c ∈ l, isSpace c = false) :
    strip l = l := by
  refine strip_eq_self_of_ends (fun c hc => h c ?_) (fun c hc => h c ?_)
  · cases l with
    | nil => simp at hc
    | cons a t => simp at hc; simp [hc]
  · have := List.mem_getLast?_eq_getLast (show c ∈ l.getLast? from hc)
    obtain ⟨hne, rfl⟩ := this
    exact List.getLast_mem hne

theorem strip_eq_nil_of_space {l : Str} (h : ∀ c ∈ l, isSpace c = true) :
    strip l = [] := by
  have hA : l.dropWhile isSpace = [] :=
    List.dropWhile_eq_nil_iff.2 (fun x hx => by simp [h x hx])
  simp [strip, hA]


theorem tokenize_ne_nil : ∀ (l : Str), ∀ t ∈ tokenize l, t ≠ [] := by
  intro l
  induction l with
  | nil => simp [tokenize]
  | cons c rest ih =>
    intro t ht
    rw [tokenize] at ht
    cases htr : tokenize rest with
    | nil => rw [htr] at ht; simp at ht; simp [ht]
    | cons t0 ts =>
      cases t0 with
      | nil => exact absurd rfl (ih [] (htr ▸ List.mem_cons_self [] ts))
      | cons d t0t =>
        rw [htr] at ht
        by_cases hc : isSpace c = isSpace d
        · simp only [if_pos hc] at ht
          rcases List.mem_cons.1 ht with h | h
          · simp [h]
          · exact ih _ (htr ▸ List.mem_cons_of_mem _ h)
        · simp only [if_neg hc] at ht
          rcases List.mem_cons.1 ht with h | h
          · simp [h]
          · exact ih _ (htr ▸ h)

theorem tokenize_flatten : ∀ l : Str, (tokenize l).flatten = l := by
  intro l
  induction l with
  | nil => rfl
  | cons c rest ih =>
    rw [tokenize]
    cases htr : tokenize rest with
    | nil =>
      have hr : rest = [] := by rw [htr] at ih; simpa using ih.symm
      simp [hr]
    | cons t0 ts =>
      cases t0 with
      | nil => exact absurd rfl (tokenize_ne_nil rest [] (htr ▸ List.mem_cons_self [] ts))
      | cons d t0t =>
        rw [htr] at ih
        by_cases hc : isSpace c = isSpace d
        · simp only [if_pos hc]
          simpa using congrArg (c :: ·) ih
        · simp only [if_neg hc]
          simpa using congrArg (c :: ·) ih

theorem tokenize_class : ∀ (l : Str), ∀ t ∈ tokenize l, ∀ a ∈ t, isSpace a = tokClass t := by
  intro l
  induction l with
  | nil => simp [tokenize]
  | cons c rest ih =>
    intro t ht
    rw [tokenize] at ht
    cases htr : tokenize rest with
    | nil =>
      rw [htr] at ht; simp at ht
      subst ht
      intro a ha
      simp at ha
      simp [ha, tokClass]
    | cons t0 ts =>
      cases t0 with
      | nil => exact absurd rfl (tokenize_ne_nil rest [] (htr ▸ List.mem_cons_self [] ts))
      | cons d t0t =>
        rw [htr] at ht
        by_cases hc : isSpace c = isSpace d
        · simp only [if_pos hc] at ht
          rcases List.mem_cons.1 ht with h | h
          · subst h
            intro a ha
            rcases List.mem_cons.1 ha with h1 | h1
            · simp [h1, tokClass]
            · have := ih (d :: t0t) (htr ▸ List.mem_cons_self _ ts) a h1
              simpa [tokClass, hc] using this
          · exact ih t (htr ▸ List.mem_cons_of_mem _ h)
        · simp only [if_neg hc] at ht
          rcases List.mem_cons.1 ht with h | h
          · subst h
            intro a ha
            simp at ha
            simp [ha, tokClass]
          · exact ih t (htr ▸ h)

theorem tokenize_chain :
    ∀ l : Str, List.Chain' (fun s t => tokClass s ≠ tokClass t) (tokenize l) := by
  intro l
  induction l with
  | nil => simp [tokenize]
  | cons c rest ih =>
    rw [tokenize]
    cases htr : tokenize rest with
    | nil => simp
    | cons t0 ts =>
      cases t0 with
      | nil => exact absurd rfl (tokenize_ne_nil rest [] (htr ▸ List.mem_cons_self [] ts))
      | cons d t0t =>
        rw [htr] at ih
        by_cases hc : isSpace c = isSpace d
        · simp only [if_pos hc]
          rw [List.chain'_cons'] at ih ⊢
          refine ⟨?_, ih.2⟩
          intro b hb
          have := ih.1 b hb
          simpa [tokClass, hc] using this
        · simp only [if_neg hc]
          rw [List.chain'_cons]
          exact ⟨by simpa [tokClass] using hc, ih⟩


theorem lookup_virama_characterMap : lookupAssoc [virama] characterMap = some [] := by
  decide

theorem t_char_of_none {c : Char} (h : lookupAssoc [c] characterMap = none) :
    transliterate_character c = [c] := by
  simp [transliterate_character, h]

theorem t_char_of_some {c : Char} {v : Str} (h : lookupAssoc [c] characterMap = some v) :
    transliterate_character c = v := by
  simp [transliterate_character, h]

theorem scanWord_id : ∀ l : Str,
    (∀ c ∈ l, lookupAssoc [c] characterMap = none) → scanWord l = l := by
  intro l
  induction l using scanWord.induct with
  | case1 c d e ih =>
    intro h
    exfalso
    have hv := h virama (by simp)
    rw [lookup_virama_characterMap] at hv
    exact Option.noConfusion hv
  | case2 c d e rest hvir ih =>
    intro h
    rw [scanWord.eq_1, if_neg hvir,
      t_char_of_none (h c (by simp)), ih (fun x hx => h x (List.mem_cons_of_mem _ hx))]
    rfl
  | case3 c rest harg ih =>
    intro h
    rw [scanWord.eq_2 c rest harg,
      t_char_of_none (h c (by simp)), ih (fun x hx => h x (List.mem_cons_of_mem _ hx))]
    rfl
  | case4 => intro _; rfl

theorem isSpaceTok_eq_tokClass {l t : Str} (ht : t ∈ tokenize l) :
    isSpaceTok t = tokClass t := by
  have hne := tokenize_ne_nil l t ht
  have hcl := tokenize_class l t ht
  cases t with
  | nil => exact absurd rfl hne
  | cons a u =>
    cases ha : isSpace a with
    | true =>
      have : ∀ b ∈ a :: u, isSpace b = true := by
        intro b hb
        rw [hcl b hb]
        simpa [tokClass] using ha
      simp [isSpaceTok, tokClass, ha, List.all_eq_true.2 (fun b hb => this b hb)]
    | false =>
      simp [isSpaceTok, tokClass, ha]

theorem scanWordI_sites_spec : ∀ (l : Str) (i : Nat), ∀ j ∈ (scanWordI l i).2,
    i ≤ j ∧ j - i + 2 < l.length ∧ l.getD (j - i + 1) ' ' = virama := by
  intro l i
  induction l, i using scanWordI.induct with
  | case1 c d e i ih =>
    intro j hj
    rw [scanWordI.eq_1, if_pos rfl] at hj
    simp only [List.mem_cons] at hj
    rcases hj with h | h
    · subst h
      refine ⟨Nat.le_refl j, ?_, ?_⟩
      · simp
      · simp [List.getD]
    · obtain ⟨h1, h2, h3⟩ := ih j h
      refine ⟨by omega, ?_, ?_⟩
      · simp at h2 ⊢; omega
      · have heq : j - i + 1 = (j - (i + 3) + 1) + 3 := by omega
        rw [heq]
        simpa [List.getD] using h3
  | case2 c d e rest i hvir ih =>
    intro j hj
    rw [scanWordI.eq_1, if_neg hvir] at hj
    simp only at hj
    obtain ⟨h1, h2, h3⟩ := ih j hj
    refine ⟨by omega, ?_, ?_⟩
    · simp at h2 ⊢; omega
    · have heq : j - i + 1 = (j - (i + 1) + 1) + 1 := by omega
      rw [heq]
      simpa [List.getD] using h3
  | case3 c rest i harg ih =>
    intro j hj
    rw [scanWordI.eq_2 _ _ _ harg] at hj
    simp only at hj
    obtain ⟨h1, h2, h3⟩ := ih j hj
    refine ⟨by omega, ?_, ?_⟩
    · simp at h2 ⊢; omega
    · have heq : j - i + 1 = (j - (i + 1) + 1) + 1 := by omega
      rw [heq]
      simpa [List.getD] using h3
  | case4 i => simp [scanWordI.eq_3]

theorem conjunctSites_spec {l : Str} {j : Nat} (h : j ∈ conjunctSites l 0) :
    j + 2 < l.length ∧ l.getD (j + 1) ' ' = virama := by
  have := scanWordI_sites_spec l 0 j h
  simpa using this


/-- Claim C1: for a word whose stripped form is `[X, virama, Y]` with `X`, `Y`
mapped characters and no exception-table hit, `transliterate_word` returns
`map(X) ++ map(Y)` with nothing in between; and in general the scan treats
`[i, i+1, i+2]` as a conjunct cluster whenever the character at `i+1` is the
virama and a character exists at `i+2`, emitting the mapping of the character
at `i` directly followed by the mapping of the character at `i+2` (the virama
contributes no output) and advancing by 3. -/
theorem C1_conjunct_rule (w : Str) (X Y : Char) (vx vy : Str)
    (hstrip : strip w = [X, virama, Y])
    (hX : lookupAssoc [X] characterMap = some vx)
    (hY : lookupAssoc [Y] characterMap = some vy)
    (hexc : lookupAssoc (strip w) wordExceptions = none) :
    transliterate_word w = vx ++ vy ∧
    ∀ (A B : Char) (rest : Str), scanWord (A :: virama :: B :: rest) =
      transliterate_character A ++ transliterate_character B ++ scanWord rest := by
  constructor
  · rw [transliterate_word, hexc, hstrip]
    rw [scanWord.eq_1, if_pos rfl, t_char_of_some hX, t_char_of_some hY]
    simp [scanWord]
  · intro A B rest
    rw [scanWord.eq_1, if_pos rfl]

/-- Witness for C1 at the concrete word ক্ষ. -/
theorem C1_witness : transliterate_word ['ক', '্', 'ষ'] = ['k', 's', 'h'] :=
  (C1_conjunct_rule ['ক', '্', 'ষ'] 'ক' 'ষ' ['k'] ['s', 'h']
    (by decide) (by decide) (by decide) (by decide)).1

/-- Claim C2: a word whose stripped form is a key of the exception table is
translated to exactly the table's value, with no character-level processing;
in particular পথের ↦ pother and বাংলা ↦ bangla. -/
theorem C2_exception_precedence :
    (∀ (w v : Str), lookupAssoc (strip w) wordExceptions = some v →
      transliterate_word w = v) ∧
    transliterate_word ['প', 'থ', 'ে', 'র'] =
      ['p', 'o', 't', 'h', 'e', 'r'] ∧
    transliterate_word ['ব', 'া', 'ং', 'ল', 'া'] =
      ['b', 'a', 'n', 'g', 'l', 'a'] := by
  refine ⟨?_, by decide, by decide⟩
  intro w v h
  rw [transliterate_word, h]

/-- Witness for C2 at the concrete word গল্প. -/
theorem C2_witness : transliterate_word ['গ', 'ল', '্', 'প'] =
    ['g', 'o', 'l', 'p', 'o'] :=
  C2_exception_precedence.1 _ _ (by decide)

/-- Claim C3: the tokenization underlying `transliterate_text` partitions the
input into nonempty maximal runs of uniform whitespace class that rejoin to the
input exactly; the output is the concatenation of that run sequence with each
whitespace run passed through unchanged and each non-whitespace run replaced by
its `transliterate_word` image; empty input yields empty output. -/
theorem C3_whitespace_structure (T : Str) :
    (tokenize T).flatten = T ∧
    (∀ t ∈ tokenize T, t ≠ [] ∧ ∀ a ∈ t, isSpace a = tokClass t) ∧
    List.Chain' (fun s t => tokClass s ≠ tokClass t) (tokenize T) ∧
    transliterate_text T =
      ((tokenize T).map fun w => if tokClass w then w else transliterate_word w).flatten ∧
    transliterate_text [] = [] := by
  refine ⟨tokenize_flatten T, fun t ht => ⟨tokenize_ne_nil T t ht, tokenize_class T t ht⟩,
    tokenize_chain T, ?_, rfl⟩
  unfold transliterate_text
  congr 1
  apply List.map_congr_left
  intro w hw
  rw [isSpaceTok_eq_tokClass hw]

/-- Witness for C3 at a concrete mixed text. -/
theorem C3_witness : (tokenize ['a', ' ', ' ', 'b']).flatten = ['a', ' ', ' ', 'b'] :=
  (C3_whitespace_structure ['a', ' ', ' ', 'b']).1

/-- Counterexample to claim C4: in the word ক্ক the virama sits at index
`length - 2` and is followed by exactly one character, yet the conjunct branch
DOES fire (at index 0), contrary to the claim that it falls through to simple
substitution; the output happens to coincide with the simple substitutions. -/
theorem C4_counterexample :
    strip ['ক', '্', 'ক'] = ['ক', '্', 'ক'] ∧
    conjunctSites ['ক', '্', 'ক'] 0 = [0] ∧
    transliterate_word ['ক', '্', 'ক'] = ['k', 'k'] := by
  refine ⟨by decide, by decide, by decide⟩

/-- Claim C4 as amended: a conjunct trigger always has a character two places
ahead, so a virama that is the last character of the word never triggers the
conjunct branch and (mapping to the empty string) contributes nothing; but a
virama followed by exactly one character DOES trigger the conjunct branch at
the preceding character — the output nevertheless equals the simple
substitutions of that character, the virama (empty) and the final character. -/
theorem C4_amended_virama_edge :
    (∀ (l : Str) (j : Nat), j ∈ conjunctSites l 0 → j + 2 < l.length) ∧
    (∀ C : Char, isSpace C = false →
      lookupAssoc [C, virama] wordExceptions = none →
      transliterate_word [C, virama] = transliterate_character C ∧
      conjunctSites [C, virama] 0 = []) ∧
    (∀ X Z : Char, isSpace X = false → isSpace Z = false →
      lookupAssoc [X, virama, Z] wordExceptions = none →
      conjunctSites [X, virama, Z] 0 = [0] ∧
      transliterate_word [X, virama, Z] =
        transliterate_character X ++ transliterate_character virama ++
          transliterate_character Z) := by
  refine ⟨fun l j h => (conjunctSites_spec h).1, ?_, ?_⟩
  · intro C hC hexc
    have hvs : isSpace virama = false := by decide
    have hstrip : strip [C, virama] = [C, virama] := by
      apply strip_eq_self_of_not_space
      intro x hx
      rcases List.mem_cons.1 hx with h | h
      · rw [h]; exact hC
      · simp at h; rw [h]; exact hvs
    have h2 : ∀ (d e : Char) (r : Str), [virama] = d :: e :: r → False := by
      intro d e r h; simp at h
    have hnil : ∀ (d e : Char) (r : Str), ([] : Str) = d :: e :: r → False := by
      intro d e r h; simp at h
    constructor
    · rw [transliterate_word, hstrip, hexc]
      show scanWord [C, virama] = _
      rw [scanWord.eq_2 _ _ h2, scanWord.eq_2 _ _ hnil, scanWord.eq_3, t_char_virama]
      simp
    · rw [conjunctSites, scanWordI.eq_2 _ _ _ h2, scanWordI.eq_2 _ _ _ hnil, scanWordI.eq_3]
  · intro X Z hX hZ hexc
    have hvs : isSpace virama = false := by decide
    have hstrip : strip [X, virama, Z] = [X, virama, Z] := by
      apply strip_eq_self_of_not_space
      intro x hx
      rcases List.mem_cons.1 hx with h | h
      · rw [h]; exact hX
      · rcases List.mem_cons.1 h with h1 | h1
        · rw [h1]; exact hvs
        · simp at h1; rw [h1]; exact hZ
    constructor
    · rw [conjunctSites, scanWordI.eq_1, if_pos rfl, scanWordI.eq_3]
    · rw [transliterate_word, hstrip, hexc]
      show scanWord [X, virama, Z] = _
      rw [scanWord.eq_1, if_pos rfl, scanWord.eq_3, t_char_virama]
      simp

/-- Witness for C4 at the concrete word খ্ (trailing virama). -/
theorem C4_witness : transliterate_word ['খ', '্'] =
    transliterate_character 'খ' :=
  (C4_amended_virama_edge.2.1 'খ' (by decide) (by decide)).1


/-- Counterexample to claim C5: the single-character word consisting of a
space is not a key of the character map, yet `transliterate_word` returns the
empty string (the word is stripped first), not the character unchanged. -/
theorem C5_counterexample :
    lookupAssoc [' '] characterMap = none ∧ transliterate_word [' '] ≠ [' '] := by
  refine ⟨by decide, by decide⟩

/-- Claim C5 as amended: for every single NON-WHITESPACE character `c` that is
not a key of the character map, `transliterate_word [c] = [c]` (identity
fallback); a whitespace character is removed by stripping and yields the empty
string instead. -/
theorem C5_amended_identity_fallback :
    (∀ c : Char, lookupAssoc [c] characterMap = none → isSpace c = false →
      transliterate_word [c] = [c]) ∧
    (∀ c : Char, isSpace c = true → transliterate_word [c] = []) := by
  constructor
  · intro c hmap hsp
    have hstrip : strip [c] = [c] := by
      apply strip_eq_self_of_not_space
      intro x hx
      simp at hx
      rw [hx]; exact hsp
    rw [transliterate_word, hstrip, lookup_singleton_exceptions]
    exact scanWord_id [c] (by intro x hx; simp at hx; rw [hx]; exact hmap)
  · intro c hsp
    have hstrip : strip [c] = [] := by
      apply strip_eq_nil_of_space
      intro x hx
      simp at hx
      rw [hx]; exact hsp
    rw [transliterate_word, hstrip, lookup_nil_exceptions]
    rfl

/-- Witness for C5 at the unmapped Latin character Q. -/
theorem C5_witness : transliterate_word ['Q'] = ['Q'] :=
  C5_amended_identity_fallback.1 'Q' (by decide) (by decide)

/-- Claim C6: on text containing no character-map key, no virama, and no
token that is an exception-table key, `transliterate_text` is the identity. -/
theorem C6_latin_identity (T : Str)
    (hmap : ∀ c ∈ T, lookupAssoc [c] characterMap = none)
    (_hvir : ∀ c ∈ T, c ≠ virama)
    (hexc : ∀ w ∈ tokenize T, lookupAssoc w wordExceptions = none) :
    transliterate_text T = T := by
  unfold transliterate_text
  have hfix : ∀ w ∈ tokenize T, (if isSpaceTok w then w else transliterate_word w) = id w := by
    intro w hw
    by_cases hs : isSpaceTok w = true
    · rw [if_pos hs]; rfl
    · rw [if_neg hs]
      have hclass : tokClass w = false := by
        rw [← isSpaceTok_eq_tokClass hw]
        simpa using hs
      have hall : ∀ c ∈ w, isSpace c = false := by
        intro c hc
        rw [tokenize_class T w hw c hc, hclass]
      have hmem : ∀ c ∈ w, c ∈ T := by
        intro c hc
        rw [← tokenize_flatten T]
        exact List.mem_flatten.2 ⟨w, hw, hc⟩
      rw [transliterate_word, strip_eq_self_of_not_space hall, hexc w hw]
      exact scanWord_id w (fun c hc => hmap c (hmem c hc))
  rw [List.map_congr_left hfix, List.map_id, tokenize_flatten]

/-- Witness for C6 at the concrete Bengali-free text "hello world". -/
theorem C6_witness :
    transliterate_text ['h', 'e', 'l', 'l', 'o', ' ', 'w', 'o', 'r', 'l', 'd'] =
      ['h', 'e', 'l', 'l', 'o', ' ', 'w', 'o', 'r', 'l', 'd'] :=
  C6_latin_identity _ (by decide) (by decide) (by decide)

/-- Claim C7: when direct extraction succeeds, its (unstripped) result is
returned — with no OCR call — exactly when the stripped text is longer than 50
characters and contains an alphanumeric character; otherwise OCR is invoked
and its result returned; a 10-character stripped text is never sufficient; and
when direct extraction throws, OCR is attempted. -/
theorem C7_extraction_policy {ε : Type} (text : Str) (ocr : Nat → Except ε Str) :
    (smartExtract (Except.ok text) ocr = (Except.ok text, 0) ↔
      isTextSufficient text = true) ∧
    (isTextSufficient text = false →
      0 < (smartExtract (Except.ok text) ocr).2 ∧
      ∀ t, ocr 0 = Except.ok t →
        smartExtract (Except.ok text) ocr = (Except.ok t, 1)) ∧
    (∀ u : Str, (strip u).length = 10 → isTextSufficient u = false) ∧
    (∀ e : ε, 0 < (smartExtract (Except.error e) ocr).2) := by
  refine ⟨?_, ?_, ?_, ?_⟩
  · cases hs : isTextSufficient text with
    | true => simp [smartExtract, hs]
    | false =>
      simp only [smartExtract, hs, Bool.false_eq_true, if_false]
      constructor
      · intro h
        cases ho : ocr 0 with
        | ok t => rw [ho] at h; simp at h
        | error e =>
          rw [ho] at h
          cases h1 : ocr 1 with
          | ok t => rw [h1] at h; simp at h
          | error e2 => rw [h1] at h; simp at h
      · intro h; exact absurd h (by simp)
  · intro hs
    simp only [smartExtract, hs, Bool.false_eq_true, if_false]
    constructor
    · cases ho : ocr 0 with
      | ok t => simp
      | error e => cases h1 : ocr 1 <;> simp
    · intro t ht
      rw [ht]
  · intro u h10
    simp [isTextSufficient, h10]
  · intro e
    simp only [smartExtract]
    cases ho : ocr 0 <;> simp

/-- Witness for C7: a 10-character direct result goes through OCR. -/
theorem C7_witness :
    smartExtract (ε := Unit) (Except.ok ['0', '1', '2', '3', '4', '5', '6', '7', '8', '9'])
      (fun _ => Except.ok ['x']) = (Except.ok ['x'], 1) := by
  have h := C7_extraction_policy (ε := Unit)
    ['0', '1', '2', '3', '4', '5', '6', '7', '8', '9'] (fun _ => Except.ok ['x'])
  exact (h.2.1 (h.2.2.1 _ (by decide))).2 ['x'] rfl


/-- Counterexample to claim C8: with direct extraction succeeding on
insufficient text and the first OCR call raising, the error does NOT reach the
caller — the handler catches it and OCR is attempted a second time (here
succeeding, so the overall result is the second OCR result and the invocation
count is 2). -/
theorem C8_counterexample :
    (fun n => if n = 0 then Except.error 0 else Except.ok ['x']) 0
        = (Except.error 0 : Except Nat Str) ∧
    smartExtract (Except.ok (List.replicate 10 'a'))
        (fun n => if n = 0 then Except.error 0 else Except.ok ['x']) =
      (Except.ok ['x'], 2) := by
  exact ⟨rfl, rfl⟩

/-- Claim C8 as amended: OCR is attempted at most twice; when direct
extraction throws, a failure of the single OCR attempt propagates to the
caller; when direct extraction succeeds with insufficient text, a failure of
the first OCR attempt is caught by the surrounding handler and OCR is
attempted once more, whose failure propagates. -/
theorem C8_amended_ocr_retry {ε : Type} (direct : Except ε Str)
    (ocr : Nat → Except ε Str) :
    (smartExtract direct ocr).2 ≤ 2 ∧
    (∀ e e', direct = Except.error e → ocr 0 = Except.error e' →
      smartExtract direct ocr = (Except.error e', 1)) ∧
    (∀ text e e', direct = Except.ok text → isTextSufficient text = false →
      ocr 0 = Except.error e → ocr 1 = Except.error e' →
      smartExtract direct ocr = (Except.error e', 2)) := by
  refine ⟨?_, ?_, ?_⟩
  · cases direct with
    | ok text =>
      cases hs : isTextSufficient text with
      | true => simp [smartExtract, hs]
      | false =>
        simp only [smartExtract, hs, Bool.false_eq_true, if_false]
        cases ho : ocr 0 with
        | ok t => simp
        | error e => cases h1 : ocr 1 <;> simp
    | error e =>
      simp only [smartExtract]
      cases ho : ocr 0 <;> simp
  · intro e e' hd ho
    subst hd
    simp only [smartExtract, ho]
  · intro text e e' hd hs ho h1
    subst hd
    simp only [smartExtract, hs, Bool.false_eq_true, if_false, ho, h1]

/-- Witness for C8: direct extraction throws and the only OCR attempt fails. -/
theorem C8_witness :
    smartExtract (Except.error 7) (fun _ => (Except.error 5 : Except Nat Str)) =
      (Except.error 5, 1) :=
  (C8_amended_ocr_retry (Except.error 7) (fun _ => Except.error 5)).2.1 7 5 rfl rfl

/-- Claim C9: `transliterate_word` is invariant under stripping its argument
(leading/trailing whitespace never reaches the output), and a word consisting
solely of whitespace is translated to the empty string, not returned
unchanged. -/
theorem C9_strip_invariance :
    (∀ w : Str, transliterate_word w = transliterate_word (strip w)) ∧
    (∀ w : Str, (∀ c ∈ w, isSpace c = true) → transliterate_word w = []) := by
  constructor
  · intro w
    simp only [transliterate_word, strip_idem]
  · intro w h
    rw [transliterate_word, strip_eq_nil_of_space h, lookup_nil_exceptions]
    rfl

/-- Witness for C9 at the all-whitespace word consisting of one space. -/
theorem C9_witness : transliterate_word [' '] = [] :=
  C9_strip_invariance.2 [' '] (by decide)

/-- Counterexample to claim C10: with `X` a space character (a non-virama
character, as the claim requires), the 5-character word `[X, virama, Y,
virama, Z]` is first stripped, so the output is not `lookup(X) ++ lookup(Y) ++
lookup(Z)`. -/
theorem C10_counterexample :
    lookupAssoc [' ', '্', 'ক', '্', 'ক'] wordExceptions = none ∧
    transliterate_word [' ', '্', 'ক', '্', 'ক'] = ['k', 'k'] ∧
    transliterate_character ' ' ++ transliterate_character 'ক' ++
        transliterate_character 'ক' = [' ', 'k', 'k'] ∧
    (['k', 'k'] : Str) ≠ [' ', 'k', 'k'] := by
  refine ⟨by decide, by decide, by decide, by decide⟩

/-- Claim C10 as amended: for a 5-character word `[X, virama, Y, virama, Z]`
not in the exception table and with non-whitespace end characters, the result
is `lookup(X) ++ lookup(Y) ++ lookup(Z)`: the first virama fuses `X` and `Y`
(the conjunct branch fires at index 0 only, regardless of whether `X` is a
consonant), and the second virama is consumed by simple substitution (mapping
to the empty string) rather than triggering a second fusion. -/
theorem C10_amended_multi_virama (X Y Z : Char)
    (hX : isSpace X = false) (hZ : isSpace Z = false)
    (hexc : lookupAssoc [X, virama, Y, virama, Z] wordExceptions = none) :
    transliterate_word [X, virama, Y, virama, Z] =
      transliterate_character X ++ transliterate_character Y ++
        transliterate_character Z ∧
    conjunctSites [X, virama, Y, virama, Z] 0 = [0] := by
  have hvs : isSpace virama = false := by decide
  have hstrip : strip [X, virama, Y, virama, Z] = [X, virama, Y, virama, Z] := by
    apply strip_eq_self_of_ends
    · intro c hc
      simp at hc
      rw [← hc]; exact hX
    · intro c hc
      rw [List.getLast?_cons_cons, List.getLast?_cons_cons,
        List.getLast?_cons_cons, List.getLast?_cons_cons] at hc
      simp at hc
      rw [← hc]; exact hZ
  have h2 : ∀ (d e : Char) (r : Str), [Z] = d :: e :: r → False := by
    intro d e r h; simp at h
  have hnil : ∀ (d e : Char) (r : Str), ([] : Str) = d :: e :: r → False := by
    intro d e r h; simp at h
  constructor
  · rw [transliterate_word, hstrip, hexc]
    show scanWord [X, virama, Y, virama, Z] = _
    rw [scanWord.eq_1, if_pos rfl, scanWord.eq_2 _ _ h2, scanWord.eq_2 _ _ hnil,
      scanWord.eq_3, t_char_virama]
    simp
  · rw [conjunctSites, scanWordI.eq_1, if_pos rfl, scanWordI.eq_2 _ _ _ h2,
      scanWordI.eq_2 _ _ _ hnil, scanWordI.eq_3]

/-- Witness for C10 at the concrete word ক্ক্ক. -/
theorem C10_witness :
    transliterate_word ['ক', '্', 'ক', '্', 'ক'] = ['k', 'k', 'k'] :=
  ((C10_amended_multi_virama 'ক' 'ক' 'ক' (by decide) (by decide)
      (by decide)).1).trans (by decide)

end BengaliTranslator
